import Mathlib

/-!
# Verification of the proof-of-work ledger (src/index.ts)

Shallow embedding of the TypeScript sources.  Numeric values (`amount`,
`nonce`, timestamps) are modelled as `Nat`; JavaScript strings as Lean
`String`.  The cryptographic provider (SHA256 block digest, MD5 mining
digest, RSA sign/verify) is external to the repository: block hashing and
signature verification are taken as parameters (`Hb`, `vf`), the MD5 mining
digest is implemented concretely below (RFC 1321), and the sign/verify pair
is modelled from the spec as an ideal signature scheme.

`Math.random()` nonces and `Date.now()` timestamps are nondeterministic
inputs, so they appear as explicit arguments.  The unbounded mining loop is
given fuel; `none` stands for "the loop did not terminate within the fuel".
-/

namespace BitcoinSimulator

/-- Truncation to an unsigned 32-bit value. -/
def u32 (n : Nat) : Nat := n % 4294967296

/-! ## MD5 (RFC 1321)

The fast mining digest used by `Chain.mine` is `crypto.createHash('MD5')`
over the UTF-8 bytes of the decimal string `(nonce + solution).toString()`,
hex-encoded.  Implemented here concretely so that the proof-of-work claims
can be settled against the digest the program actually uses. -/

/-- Left-rotation of a 32-bit value by `s` bits. -/
def rotl32 (x s : Nat) : Nat := u32 (x <<< s ||| x >>> (32 - s))

/-- The 64 sine-derived round constants `K[i] = ⌊2³² · |sin(i+1)|⌋`. -/
def md5K : List Nat :=
  [3614090360, 3905402710, 606105819, 3250441966, 4118548399, 1200080426,
   2821735955, 4249261313, 1770035416, 2336552879, 4294925233, 2304563134,
   1804603682, 4254626195, 2792965006, 1236535329, 4129170786, 3225465664,
   643717713, 3921069994, 3593408605, 38016083, 3634488961, 3889429448,
   568446438, 3275163606, 4107603335, 1163531501, 2850285829, 4243563512,
   1735328473, 2368359562, 4294588738, 2272392833, 1839030562, 4259657740,
   2763975236, 1272893353, 4139469664, 3200236656, 681279174, 3936430074,
   3572445317, 76029189, 3654602809, 3873151461, 530742520, 3299628645,
   4096336452, 1126891415, 2878612391, 4237533241, 1700485571, 2399980690,
   4293915773, 2240044497, 1873313359, 4264355552, 2734768916, 1309151649,
   4149444226, 3174756917, 718787259, 3951481745]

/-- The per-round left-rotation amounts. -/
def md5S : List Nat :=
  [7, 12, 17, 22, 7, 12, 17, 22, 7, 12, 17, 22, 7, 12, 17, 22,
   5, 9, 14, 20, 5, 9, 14, 20, 5, 9, 14, 20, 5, 9, 14, 20,
   4, 11, 16, 23, 4, 11, 16, 23, 4, 11, 16, 23, 4, 11, 16, 23,
   6, 10, 15, 21, 6, 10, 15, 21, 6, 10, 15, 21, 6, 10, 15, 21]

/-- The round mixing function (complement written as xor with `2³² - 1`). -/
def md5F (i b c d : Nat) : Nat :=
  if i < 16 then (b &&& c) ||| ((4294967295 ^^^ b) &&& d)
  else if i < 32 then (d &&& b) ||| ((4294967295 ^^^ d) &&& c)
  else if i < 48 then b ^^^ c ^^^ d
  else c ^^^ (b ||| (4294967295 ^^^ d))

/-- The message-word index used in round `i`. -/
def md5G (i : Nat) : Nat :=
  if i < 16 then i
  else if i < 32 then (5 * i + 1) % 16
  else if i < 48 then (3 * i + 5) % 16
  else (7 * i) % 16

/-- One MD5 round on the state `(a, b, c, d)` with message words `M`. -/
def md5Round (M : List Nat) (st : Nat × Nat × Nat × Nat) (i : Nat) :
    Nat × Nat × Nat × Nat :=
  let f := u32 (md5F i st.2.1 st.2.2.1 st.2.2.2 + st.1 + md5K.getD i 0
    + M.getD (md5G i) 0)
  (st.2.2.2, u32 (st.2.1 + rotl32 f (md5S.getD i 0)), st.2.1, st.2.2.1)

/-- Little-endian byte decomposition of `n` into `len` bytes. -/
def leBytes (len n : Nat) : List Nat :=
  (List.range len).map fun i => n / 256 ^ i % 256

/-- The sixteen little-endian 32-bit words of one 64-byte chunk. -/
def chunkWords (c : List Nat) : List Nat :=
  (List.range 16).map fun i =>
    c.getD (4 * i) 0 + 256 * c.getD (4 * i + 1) 0
      + 65536 * c.getD (4 * i + 2) 0 + 16777216 * c.getD (4 * i + 3) 0

/-- Process one 64-byte chunk: 64 rounds, then add into the running state. -/
def md5Chunk (st : Nat × Nat × Nat × Nat) (c : List Nat) : Nat × Nat × Nat × Nat :=
  let r := (List.range 64).foldl (md5Round (chunkWords c)) st
  (u32 (st.1 + r.1), u32 (st.2.1 + r.2.1), u32 (st.2.2.1 + r.2.2.1),
    u32 (st.2.2.2 + r.2.2.2))

/-- MD5 padding: `0x80`, zeros to 56 mod 64, then the bit length as eight
little-endian bytes. -/
def md5Pad (msg : List Nat) : List Nat :=
  msg ++ 128 :: List.replicate ((119 - msg.length % 64) % 64) 0
    ++ leBytes 8 (8 * msg.length)

/-- Split a byte list into 64-byte chunks (fuel-based for kernel reduction;
the padded length is a multiple of 64, so `drop` eventually empties). -/
def chunks64 : Nat → List Nat → List (List Nat)
  | 0, _ => []
  | _, [] => []
  | fuel + 1, l => l.take 64 :: chunks64 fuel (l.drop 64)

/-- MD5 digest of a byte list, as sixteen bytes. -/
def md5Bytes (msg : List Nat) : List Nat :=
  let p := md5Pad msg
  let st := (chunks64 p.length p).foldl md5Chunk
    (1732584193, 4023233417, 2562383102, 271733878)
  leBytes 4 st.1 ++ leBytes 4 st.2.1 ++ leBytes 4 st.2.2.1 ++ leBytes 4 st.2.2.2

/-- UTF-8 encoding of one character. -/
def utf8Char (c : Char) : List Nat :=
  let n := c.toNat
  if n < 128 then [n]
  else if n < 2048 then [192 ||| n >>> 6, 128 ||| n &&& 63]
  else if n < 65536 then
    [224 ||| n >>> 12, 128 ||| (n >>> 6) &&& 63, 128 ||| n &&& 63]
  else
    [240 ||| n >>> 18, 128 ||| (n >>> 12) &&& 63, 128 ||| (n >>> 6) &&& 63,
      128 ||| n &&& 63]

/-- The UTF-8 bytes of a string (`hash.update(...)` encodes as UTF-8). -/
def utf8Bytes (s : String) : List Nat := (s.data.map utf8Char).flatten

/-- Lowercase hex encoding of a byte list. -/
def bytesToHex (bs : List Nat) : List Char :=
  (bs.map fun b => [Nat.digitChar (b / 16), Nat.digitChar (b % 16)]).flatten

/-- Model of `crypto.createHash('MD5')` digest of a string, hex-encoded: the mining
digest of `Chain.mine`. -/
def md5hex (s : String) : String := ⟨bytesToHex (md5Bytes (utf8Bytes s))⟩

/-- Model of `class Transaction`: amount, payer public key, payee public key. -/
structure Transaction where
  amount : Nat
  payer : String
  payee : String
deriving DecidableEq

/-- Model of `class Block` with its JSON-relevant fields, listed in JavaScript
property-insertion order (the field initializer `nonce` runs before the
constructor assigns the parameter properties, so `JSON.stringify` emits
`nonce` first). -/
structure Block where
  nonce : Nat
  prevHash : String
  transaction : Transaction
  ts : Nat
deriving DecidableEq

/-- Decimal digits of `n` (most significant first), as produced by
JavaScript number-to-string conversion on integer values.  Fuel-based so
that it reduces in the kernel; `natDecimal` supplies enough fuel. -/
def natDecimalAux : Nat → Nat → List Char
  | 0, _ => []
  | fuel + 1, n =>
    if n < 10 then [Nat.digitChar n]
    else natDecimalAux fuel (n / 10) ++ [Nat.digitChar (n % 10)]

/-- Decimal representation of a natural number, e.g. `natDecimal 50 = "50".data`. -/
def natDecimal (n : Nat) : List Char := natDecimalAux (n + 1) n

/-- The `JSON.stringify` escaping of a single character inside a string
literal: quote, backslash, the named control escapes, `\u00XX` for the
remaining control characters, all other characters unchanged. -/
def jsonEscapeChar (c : Char) : List Char :=
  if c = '"' then ['\\', '"']
  else if c = '\\' then ['\\', '\\']
  else if c = '\x08' then ['\\', 'b']
  else if c = '\x09' then ['\\', 't']
  else if c = '\x0a' then ['\\', 'n']
  else if c = '\x0c' then ['\\', 'f']
  else if c = '\x0d' then ['\\', 'r']
  else if c.toNat < 32 then
    ['\\', 'u', '0', '0', Nat.digitChar (c.toNat / 16), Nat.digitChar (c.toNat % 16)]
  else [c]

/-- The `JSON.stringify` escaping of a whole string body. -/
def jsonEscapeStr : List Char → List Char
  | [] => []
  | c :: cs => jsonEscapeChar c ++ jsonEscapeStr cs

/-- Model of `Transaction.toString()`, i.e. `JSON.stringify(this)`:
`\x7b"amount":A,"payer":"P","payee":"Q"\x7d` with the field order fixed by
construction order and string bodies JSON-escaped. -/
def txChars (t : Transaction) : List Char :=
  "\x7b\"amount\":".data ++ natDecimal t.amount
    ++ ",\"payer\":\"".data ++ jsonEscapeStr t.payer.data
    ++ '"' :: ",\"payee\":\"".data ++ jsonEscapeStr t.payee.data
    ++ '"' :: ['\x7d']

/-- Model of `Transaction.toString()` as a `String`. -/
def txString (t : Transaction) : String := ⟨txChars t⟩

/-- The `JSON.stringify` serialization of a `Block` (property order `nonce`, `prevHash`,
`transaction`, `ts`; the nested transaction serializes as in `txChars`). -/
def blockChars (b : Block) : List Char :=
  "\x7b\"nonce\":".data ++ natDecimal b.nonce
    ++ ",\"prevHash\":\"".data ++ jsonEscapeStr b.prevHash.data
    ++ '"' :: ",\"transaction\":".data ++ txChars b.transaction
    ++ ",\"ts\":".data ++ natDecimal b.ts ++ ['\x7d']

/-- The `hash` getter of `Block`: the block digest `Hb` (SHA256 in the
source, supplied by the external crypto provider) applied to the JSON
serialization of the current block state.  Recomputed on every read. -/
def blockHash (Hb : String → String) (b : Block) : String := Hb ⟨blockChars b⟩

/-- The genesis transaction `new Transaction(100, 'genesis', 'satoshi')`. -/
def genesisTransaction : Transaction := ⟨100, "genesis", "satoshi"⟩

/-- The chain built by the `Chain` constructor: one genesis block with empty
`prevHash` (its random nonce and timestamp are inputs). -/
def initialChain (nonce ts : Nat) : List Block :=
  [⟨nonce, "", genesisTransaction, ts⟩]

/-- Model of `get lastBlock()`, i.e. `this.chain[this.chain.length - 1]`; `none` models the
JavaScript `undefined` on an empty array. -/
def lastBlock (chain : List Block) : Option Block :=
  chain[chain.length - 1]?

/-- The target test `attempt.substr(0, 4) === '0000'`. -/
def hasTarget (s : String) : Bool := s.take 4 == "0000"

/-- Body of the `while(true)` mining loop: try `solution`, then
`solution + 1`, ... until the digest of `(nonce + solution).toString()`
starts with `0000`; `none` when the fuel runs out first. -/
def mineAux (Hm : String → String) (nonce : Nat) : Nat → Nat → Option Nat
  | 0, _ => none
  | fuel + 1, solution =>
    if hasTarget (Hm ⟨natDecimal (nonce + solution)⟩) then some solution
    else mineAux Hm nonce fuel (solution + 1)

/-- Model of `Chain.mine(nonce)`: brute-force search starting at `solution = 1`.
`Hm` is the fast mining digest (MD5 in the source). -/
def mine (Hm : String → String) (nonce fuel : Nat) : Option Nat :=
  mineAux Hm nonce fuel 1

/-- Model of `Chain.addBlock(transaction, senderPublicKey, signature)`.
`vf` is the provider's `createVerify('SHA256')`/`verify` pair, abstract over
the signature type `σ`.  On a valid signature the code builds
`newBlock = new Block(this.lastBlock.hash, transaction)` (with a fresh
random `nonce`, here the explicit argument), calls `this.mine(newBlock.nonce)`
*discarding its result*, and pushes `newBlock`.  On an invalid signature it
does nothing.  `none` models the two ways the call can fail to return
normally: reading `.hash` of `undefined` on an empty chain, and the mining
loop not terminating within the fuel. -/
def addBlock (Hb Hm : String → String) {σ : Type} (vf : String → String → σ → Bool)
    (chain : List Block) (transaction : Transaction) (senderPublicKey : String)
    (signature : σ) (nonce ts fuel : Nat) : Option (List Block) :=
  if vf senderPublicKey (txString transaction) signature then
    match lastBlock chain with
    | none => none
    | some lb =>
      match mine Hm nonce fuel with
      | none => none
      | some _ => some (chain ++ [⟨nonce, blockHash Hb lb, transaction, ts⟩])
  else some chain

/-! ## The signing identity (`class Wallet`)

RSA key generation and the `createSign`/`createVerify` pair are supplied by
the external crypto provider (spec section 6); only their contract is
visible from the sources. -/

/-- Modelled from the spec: a signature produced by the crypto provider's
digest-and-sign operation.  The spec (sections 4.4 and 6) requires only
that a signature is verifiable exactly with the matching public key and the
same signed bytes, so a signature is modelled as the pair of the signing
private key and the signed message. -/
structure IdealSig where
  signerKey : String
  message : String
deriving DecidableEq

/-- Modelled from the spec: `sign.sign(privateKey)` over previously updated
message bytes — a signature bound to the private key and the exact bytes. -/
def idealSign (privateKey msg : String) : IdealSig := ⟨privateKey, msg⟩

/-- Modelled from the spec: `verify.verify(publicKey, signature)` over
previously updated message bytes.  `isKeyPair pub priv` is the opaque
"these keys were generated together" relation of the key-pair generator.
Verification succeeds iff the supplied public key matches the signing
private key and the verified bytes equal the signed bytes. -/
def idealVerify (isKeyPair : String → String → Bool) (publicKey msg : String)
    (sig : IdealSig) : Bool :=
  isKeyPair publicKey sig.signerKey && sig.message == msg

/-- Model of `Wallet.sendMoney(amount, payeePublicKey)`: build the transaction with
`payer = this.publicKey`, sign its serialization with the private key, and
submit to `Chain.instance.addBlock`. -/
def sendMoney (Hb Hm : String → String) (isKeyPair : String → String → Bool)
    (chain : List Block) (publicKey privateKey : String) (amount : Nat)
    (payeePublicKey : String) (nonce ts fuel : Nat) : Option (List Block) :=
  let transaction : Transaction := ⟨amount, publicKey, payeePublicKey⟩
  addBlock Hb Hm (idealVerify isKeyPair) chain transaction publicKey
    (idealSign privateKey (txString transaction)) nonce ts fuel

/-! ## A decoder for the canonical transaction encoding

Used only to prove that `txString` is injective (changing any transaction
field changes the signed bytes). -/

/-- Value of a lowercase hexadecimal digit. -/
def hexVal? (c : Char) : Option Nat :=
  if '0' ≤ c ∧ c ≤ '9' then some (c.toNat - 48)
  else if 'a' ≤ c ∧ c ≤ 'f' then some (c.toNat - 87)
  else none

/-- Inverse of the named JSON escapes. -/
def unescapeChar : Char → Option Char
  | '"' => some '"'
  | '\\' => some '\\'
  | 'b' => some '\x08'
  | 't' => some '\x09'
  | 'n' => some '\x0a'
  | 'f' => some '\x0c'
  | 'r' => some '\x0d'
  | _ => none

/-- Read a JSON string body up to its closing quote, undoing the escapes of
`jsonEscapeChar`; returns the decoded body and the input after the quote. -/
def parseJsonStr : List Char → Option (List Char × List Char)
  | [] => none
  | c :: r =>
    if c = '"' then some ([], r)
    else if c = '\\' then
      match r with
      | [] => none
      | e :: r2 =>
        if e = 'u' then
          match r2 with
          | h1 :: h2 :: h3 :: h4 :: r3 =>
            match hexVal? h1, hexVal? h2, hexVal? h3, hexVal? h4 with
            | some v1, some v2, some v3, some v4 =>
              (parseJsonStr r3).map fun p =>
                (Char.ofNat (((v1 * 16 + v2) * 16 + v3) * 16 + v4) :: p.1, p.2)
            | _, _, _, _ => none
          | _ => none
        else
          match unescapeChar e with
          | some d => (parseJsonStr r2).map fun p => (d :: p.1, p.2)
          | none => none
    else (parseJsonStr r).map fun p => (c :: p.1, p.2)

/-- Consume an expected literal. -/
def stripLit : List Char → List Char → Option (List Char)
  | [], r => some r
  | _ :: _, [] => none
  | p :: ps, c :: r => if c = p then stripLit ps r else none

/-- Longest decimal-digit run at the front of the input. -/
def spanDigits : List Char → List Char × List Char
  | [] => ([], [])
  | c :: r =>
    if c.isDigit then ((spanDigits r).1.cons c, (spanDigits r).2)
    else ([], c :: r)

/-- Numeric value of a decimal-digit run. -/
def charsVal (l : List Char) : Nat :=
  l.foldl (fun a c => 10 * a + (c.toNat - 48)) 0

/-- Decode the three transaction fields back out of `txChars`. -/
def decodeTx (s : List Char) : Option (Nat × List Char × List Char) :=
  match stripLit "\x7b\"amount\":".data s with
  | none => none
  | some r1 =>
    match spanDigits r1 with
    | (ds, r2) =>
      match stripLit ",\"payer\":\"".data r2 with
      | none => none
      | some r3 =>
        match parseJsonStr r3 with
        | none => none
        | some (P, r4) =>
          match stripLit ",\"payee\":\"".data r4 with
          | none => none
          | some r5 =>
            match parseJsonStr r5 with
            | none => none
            | some (Q, _) => some (charsVal ds, P, Q)

/-- Ledger states reachable from the `Chain` constructor by `addBlock` calls
that return normally. -/
inductive Reachable (Hb Hm : String → String) {σ : Type}
    (vf : String → String → σ → Bool) : List Block → Prop
  | init (nonce ts : Nat) : Reachable Hb Hm vf (initialChain nonce ts)
  | step (chain chain' : List Block) (tx : Transaction) (pub : String) (sig : σ)
      (nonce ts fuel : Nat) : Reachable Hb Hm vf chain →
      addBlock Hb Hm vf chain tx pub sig nonce ts fuel = some chain' →
      Reachable Hb Hm vf chain'

/-! ## Concrete provider instances

Used to evaluate the parametrized model on closed inputs: a constant block
digest, an always-accepting and an always-rejecting verifier, and a key-pair
relation with one matching pair. -/

/-- A block-digest instance returning a fixed string. -/
def constHash (out : String) : String → String := fun _ => out

/-- A verifier instance accepting every signature. -/
def acceptAll : String → String → Unit → Bool := fun _ _ _ => true

/-- A verifier instance rejecting every signature. -/
def rejectAll : String → String → Unit → Bool := fun _ _ _ => false

/-- A key-pair relation with exactly one matching pair. -/
def pairKey : String → String → Bool := fun pub priv => pub == "PUB" && priv == "PRIV"

/-! ## Lemmas about decimal printing -/

theorem digitChar_toNat {d : Nat} (h : d < 10) : (Nat.digitChar d).toNat = 48 + d := by
  interval_cases d <;> rfl

theorem digitChar_isDigit {d : Nat} (h : d < 10) : (Nat.digitChar d).isDigit = true := by
  interval_cases d <;> rfl

theorem natDecimalAux_digits :
    ∀ fuel n, n < fuel → ∀ c ∈ natDecimalAux fuel n, c.isDigit = true := by
  intro fuel
  induction fuel with
  | zero => intro n h; exact absurd h (Nat.not_lt_zero n)
  | succ f ih =>
    intro n h c hc
    simp only [natDecimalAux] at hc
    by_cases h10 : n < 10
    · rw [if_pos h10] at hc
      simp only [List.mem_singleton] at hc
      subst hc
      exact digitChar_isDigit h10
    · rw [if_neg h10] at hc
      rcases List.mem_append.mp hc with hc | hc
      · exact ih (n / 10) (by omega) c hc
      · simp only [List.mem_singleton] at hc
        subst hc
        exact digitChar_isDigit (Nat.mod_lt n (by norm_num))

theorem natDecimal_digits (n : Nat) : ∀ c ∈ natDecimal n, c.isDigit = true :=
  natDecimalAux_digits (n + 1) n (Nat.lt_succ_self n)

theorem charsVal_natDecimalAux :
    ∀ fuel n a, n < fuel →
      List.foldl (fun a c => 10 * a + (c.toNat - 48)) a (natDecimalAux fuel n) =
        a * 10 ^ (natDecimalAux fuel n).length + n := by
  intro fuel
  induction fuel with
  | zero => intro n a h; exact absurd h (Nat.not_lt_zero n)
  | succ f ih =>
    intro n a h
    simp only [natDecimalAux]
    by_cases h10 : n < 10
    · rw [if_pos h10]
      simp only [List.foldl_cons, List.foldl_nil, List.length_singleton,
        digitChar_toNat h10, pow_one]
      omega
    · rw [if_neg h10]
      rw [List.foldl_append, ih (n / 10) a (by omega)]
      simp only [List.foldl_cons, List.foldl_nil, List.length_append,
        List.length_singleton, digitChar_toNat (Nat.mod_lt n (by norm_num))]
      have hdm : 10 * (n / 10) + n % 10 = n := by omega
      have hsub : 48 + n % 10 - 48 = n % 10 := by omega
      rw [hsub, pow_succ]
      calc 10 * (a * 10 ^ (natDecimalAux f (n / 10)).length + n / 10) + n % 10
          = a * (10 ^ (natDecimalAux f (n / 10)).length * 10)
            + (10 * (n / 10) + n % 10) := by ring
        _ = a * (10 ^ (natDecimalAux f (n / 10)).length * 10) + n := by rw [hdm]

theorem charsVal_natDecimal (n : Nat) : charsVal (natDecimal n) = n := by
  unfold charsVal natDecimal
  rw [charsVal_natDecimalAux (n + 1) n 0 (Nat.lt_succ_self n)]
  simp

/-! ## Lemmas about the JSON string escaping -/

theorem hexVal?_digitChar {d : Nat} (h : d < 16) : hexVal? (Nat.digitChar d) = some d := by
  interval_cases d <;> rfl

theorem parseJsonStr_escape :
    ∀ s r : List Char, parseJsonStr (jsonEscapeStr s ++ '"' :: r) = some (s, r) := by
  intro s
  induction s with
  | nil => intro r; rw [jsonEscapeStr, List.nil_append, parseJsonStr.eq_def]; simp
  | cons c cs ih =>
    intro r
    simp only [jsonEscapeStr, List.append_assoc]
    unfold jsonEscapeChar
    by_cases h1 : c = '"'
    · subst h1
      rw [if_pos rfl, List.cons_append, List.cons_append, List.nil_append,
        parseJsonStr.eq_def]
      simp [unescapeChar, ih r]
    · rw [if_neg h1]
      by_cases h2 : c = '\\'
      · subst h2
        rw [if_pos rfl, List.cons_append, List.cons_append, List.nil_append,
          parseJsonStr.eq_def]
        simp [unescapeChar, ih r]
      · rw [if_neg h2]
        by_cases h3 : c = '\x08'
        · subst h3
          rw [if_pos rfl, List.cons_append, List.cons_append, List.nil_append,
            parseJsonStr.eq_def]
          simp [unescapeChar, ih r]
        · rw [if_neg h3]
          by_cases h4 : c = '\x09'
          · subst h4
            rw [if_pos rfl, List.cons_append, List.cons_append, List.nil_append,
              parseJsonStr.eq_def]
            simp [unescapeChar, ih r]
          · rw [if_neg h4]
            by_cases h5 : c = '\x0a'
            · subst h5
              rw [if_pos rfl, List.cons_append, List.cons_append, List.nil_append,
                parseJsonStr.eq_def]
              simp [unescapeChar, ih r]
            · rw [if_neg h5]
              by_cases h6 : c = '\x0c'
              · subst h6
                rw [if_pos rfl, List.cons_append, List.cons_append, List.nil_append,
                  parseJsonStr.eq_def]
                simp [unescapeChar, ih r]
              · rw [if_neg h6]
                by_cases h7 : c = '\x0d'
                · subst h7
                  rw [if_pos rfl, List.cons_append, List.cons_append, List.nil_append,
                    parseJsonStr.eq_def]
                  simp [unescapeChar, ih r]
                · rw [if_neg h7]
                  by_cases h8 : c.toNat < 32
                  · rw [if_pos h8]
                    simp only [List.cons_append, List.nil_append]
                    rw [parseJsonStr.eq_def]
                    simp [show hexVal? '0' = some 0 from rfl,
                      hexVal?_digitChar (show c.toNat / 16 < 16 by omega),
                      hexVal?_digitChar (show c.toNat % 16 < 16 by omega), ih r]
                    rw [show (c.toNat / 16 * 16 + c.toNat % 16 : Nat) = c.toNat from
                      by omega, Char.ofNat_toNat]
                  · rw [if_neg h8]
                    simp only [List.cons_append, List.nil_append]
                    rw [parseJsonStr.eq_def]
                    simp [if_neg h1, if_neg h2, ih r]

/-! ## The decoder inverts the canonical encoding -/

theorem stripLit_append : ∀ lit r : List Char, stripLit lit (lit ++ r) = some r := by
  intro lit
  induction lit with
  | nil => intro r; rfl
  | cons p ps ih => intro r; simp [stripLit, ih r]

theorem spanDigits_append :
    ∀ ds : List Char, (∀ c ∈ ds, c.isDigit = true) →
      ∀ (x : Char) (r : List Char), x.isDigit = false →
        spanDigits (ds ++ x :: r) = (ds, x :: r) := by
  intro ds
  induction ds with
  | nil => intro _ x r hx; simp [spanDigits, hx]
  | cons c cs ih =>
    intro h x r hx
    have hc : c.isDigit = true := h c (List.mem_cons_self c cs)
    simp [spanDigits, hc, ih (fun d hd => h d (List.mem_cons_of_mem c hd)) x r hx]

theorem stripLit_same_cons (p : Char) (ps r : List Char) :
    stripLit (p :: ps) (p :: r) = stripLit ps r := by
  simp [stripLit]

theorem decodeTx_txChars (t : Transaction) :
    decodeTx (txChars t) = some (t.amount, t.payer.data, t.payee.data) := by
  have h1 : txChars t = "\x7b\"amount\":".data ++ (natDecimal t.amount ++ ',' ::
      ("\"payer\":\"".data ++ (jsonEscapeStr t.payer.data ++ '"' ::
        (",\"payee\":\"".data ++ (jsonEscapeStr t.payee.data ++ '"' :: ['\x7d']))))) := by
    simp only [txChars, List.append_assoc, List.cons_append]
  have h2 : ∀ r : List Char,
      stripLit ",\"payer\":\"".data (',' :: ("\"payer\":\"".data ++ r)) = some r := by
    intro r
    rw [show (",\"payer\":\"".data : List Char) = ',' :: "\"payer\":\"".data from rfl,
      stripLit_same_cons, stripLit_append]
  unfold decodeTx
  rw [h1]
  simp only [stripLit_append,
    spanDigits_append (natDecimal t.amount) (natDecimal_digits t.amount) ',' _ rfl,
    h2, parseJsonStr_escape, charsVal_natDecimal]

theorem txChars_injective {t1 t2 : Transaction} (h : txChars t1 = txChars t2) :
    t1 = t2 := by
  have hd := decodeTx_txChars t1
  rw [h, decodeTx_txChars t2] at hd
  obtain ⟨a1, p1, q1⟩ := t1
  obtain ⟨a2, p2, q2⟩ := t2
  simp only [Option.some.injEq, Prod.mk.injEq] at hd
  obtain ⟨ha, hp, hq⟩ := hd
  exact congrArg₂ (fun p q => Transaction.mk a1 p q) (String.ext hp).symm
    (String.ext hq).symm ▸ by
      cases String.ext hp
      cases String.ext hq
      cases ha
      rfl

theorem txString_injective {t1 t2 : Transaction} (h : txString t1 = txString t2) :
    t1 = t2 :=
  txChars_injective (congrArg String.data h)

/-! ## Lemmas about the mining loop -/

theorem mineAux_spec (Hm : String → String) (nonce : Nat) :
    ∀ fuel sol s, mineAux Hm nonce fuel sol = some s →
      sol ≤ s ∧ hasTarget (Hm ⟨natDecimal (nonce + s)⟩) = true ∧
        ∀ k, sol ≤ k → k < s → hasTarget (Hm ⟨natDecimal (nonce + k)⟩) = false := by
  intro fuel
  induction fuel with
  | zero => intro sol s h; cases h
  | succ f ih =>
    intro sol s h
    rw [mineAux] at h
    by_cases ht : hasTarget (Hm ⟨natDecimal (nonce + sol)⟩) = true
    · rw [if_pos ht] at h
      cases Option.some.inj h
      exact ⟨Nat.le_refl sol, ht, fun k hk1 hk2 => absurd hk2 (by omega)⟩
    · have ht' : hasTarget (Hm ⟨natDecimal (nonce + sol)⟩) = false :=
        Bool.eq_false_iff.mpr ht
      rw [if_neg ht] at h
      obtain ⟨h1, h2, h3⟩ := ih (sol + 1) s h
      refine ⟨by omega, h2, fun k hk1 hk2 => ?_⟩
      rcases Nat.eq_or_lt_of_le hk1 with hk | hk
      · rw [← hk]; exact ht'
      · exact h3 k hk hk2

theorem mine_spec (Hm : String → String) (nonce fuel s : Nat)
    (h : mine Hm nonce fuel = some s) :
    1 ≤ s ∧ hasTarget (Hm ⟨natDecimal (nonce + s)⟩) = true ∧
      ∀ k, 1 ≤ k → k < s → hasTarget (Hm ⟨natDecimal (nonce + k)⟩) = false :=
  mineAux_spec Hm nonce fuel 1 s h

/-! ## Case analysis of a normally returning addBlock call -/

theorem addBlock_cases (Hb Hm : String → String) {σ : Type}
    (vf : String → String → σ → Bool) (chain : List Block) (tx : Transaction)
    (pub : String) (sig : σ) (nonce ts fuel : Nat) (chain' : List Block)
    (h : addBlock Hb Hm vf chain tx pub sig nonce ts fuel = some chain') :
    (vf pub (txString tx) sig = false ∧ chain' = chain) ∨
    (vf pub (txString tx) sig = true ∧ ∃ lb s, lastBlock chain = some lb ∧
      mine Hm nonce fuel = some s ∧
      chain' = chain ++ [⟨nonce, blockHash Hb lb, tx, ts⟩]) := by
  unfold addBlock at h
  by_cases hv : vf pub (txString tx) sig = true
  · rw [if_pos hv] at h
    right
    refine ⟨hv, ?_⟩
    cases hlb : lastBlock chain with
    | none => rw [hlb] at h; cases h
    | some lb =>
      rw [hlb] at h
      cases hm : mine Hm nonce fuel with
      | none => rw [hm] at h; cases h
      | some s =>
        rw [hm] at h
        exact ⟨lb, s, rfl, rfl, (Option.some.inj h).symm⟩
  · rw [if_neg hv] at h
    exact Or.inl ⟨Bool.eq_false_iff.mpr hv, (Option.some.inj h).symm⟩

/-! ## Claim theorems -/

/-- C7: the `hash` getter of `Block` is a pure, deterministic function of the
four current field values (prevHash, transaction, timestamp, nonce): two
blocks agreeing on all fields have identical digests, and the digest is the
block digest of the canonical JSON encoding of the full block state
including the current nonce. -/
theorem blockHash_deterministic (Hb : String → String) (b1 b2 : Block)
    (hn : b1.nonce = b2.nonce) (hp : b1.prevHash = b2.prevHash)
    (htx : b1.transaction = b2.transaction) (hts : b1.ts = b2.ts) :
    blockHash Hb b1 = blockHash Hb b2 ∧ blockHash Hb b1 = Hb ⟨blockChars b1⟩ := by
  obtain ⟨n1, p1, tx1, ts1⟩ := b1
  obtain ⟨n2, p2, tx2, ts2⟩ := b2
  cases hn; cases hp; cases htx; cases hts
  exact ⟨rfl, rfl⟩

/-- Witness for C7 at a concrete block. -/
theorem blockHash_deterministic_witness :
    blockHash (constHash "H") ⟨1, "p", ⟨50, "pkA", "pkB"⟩, 2⟩ =
      blockHash (constHash "H") ⟨1, "p", ⟨50, "pkA", "pkB"⟩, 2⟩ ∧
    blockHash (constHash "H") ⟨1, "p", ⟨50, "pkA", "pkB"⟩, 2⟩ =
      constHash "H" ⟨blockChars ⟨1, "p", ⟨50, "pkA", "pkB"⟩, 2⟩⟩ :=
  blockHash_deterministic (constHash "H") ⟨1, "p", ⟨50, "pkA", "pkB"⟩, 2⟩
    ⟨1, "p", ⟨50, "pkA", "pkB"⟩, 2⟩ rfl rfl rfl rfl

/-- C8: `lastBlock` is partial exactly on the empty chain (the JavaScript
`undefined` case), and whenever the genesis invariant `chain.length >= 1`
holds it returns the final element of the sequence. -/
theorem lastBlock_spec (chain : List Block) :
    (lastBlock chain = none ↔ chain.length = 0) ∧
    (0 < chain.length →
      lastBlock chain = chain.getLast? ∧ ∃ b, lastBlock chain = some b) := by
  constructor
  · unfold lastBlock
    rw [List.getElem?_eq_none_iff]
    omega
  · intro h
    refine ⟨(List.getLast?_eq_getElem? chain).symm, ?_⟩
    unfold lastBlock
    exact ⟨_, List.getElem?_eq_getElem (show chain.length - 1 < chain.length by omega)⟩

/-- Witness for C8 at a concrete one-block chain. -/
theorem lastBlock_spec_witness :
    lastBlock (initialChain 5 6) = (initialChain 5 6).getLast? ∧
    ∃ b, lastBlock (initialChain 5 6) = some b :=
  (lastBlock_spec (initialChain 5 6)).2 (by decide)

/-- C5: with the crypto provider's sign/verify contract (modelled from the
spec), verifying an identity's signature over a transaction's canonical
encoding with the matching public key succeeds, and changing any field of
the transaction after signing makes verification of the old signature
against the mutated encoding fail. -/
theorem signature_round_trip (isKeyPair : String → String → Bool)
    (pub priv : String) (t : Transaction) (hk : isKeyPair pub priv = true) :
    idealVerify isKeyPair pub (txString t) (idealSign priv (txString t)) = true ∧
    ∀ t' : Transaction, t' ≠ t →
      idealVerify isKeyPair pub (txString t') (idealSign priv (txString t)) = false := by
  constructor
  · simp [idealVerify, idealSign, hk]
  · intro t' hne
    simp only [idealVerify, idealSign, hk, Bool.true_and]
    rw [beq_eq_false_iff_ne]
    exact fun h => hne (txString_injective h).symm

/-- Witness for C5 at a concrete key pair and transaction. -/
theorem signature_round_trip_witness :
    idealVerify pairKey "PUB" (txString ⟨50, "pkA", "pkB"⟩)
      (idealSign "PRIV" (txString ⟨50, "pkA", "pkB"⟩)) = true ∧
    ∀ t' : Transaction, t' ≠ ⟨50, "pkA", "pkB"⟩ →
      idealVerify pairKey "PUB" (txString t')
        (idealSign "PRIV" (txString ⟨50, "pkA", "pkB"⟩)) = false :=
  signature_round_trip pairKey "PUB" "PRIV" ⟨50, "pkA", "pkB"⟩ (by decide)

/-- C3: a normally returning `addBlock` call either appends exactly one
block — the chain length grows by exactly 1 and the existing prefix is
unchanged — when the signature verifies, or, when verification fails, is a
silent no-op: it returns normally (no exception) with the chain state
completely unchanged. -/
theorem addBlock_append_or_silent_noop (Hb Hm : String → String) {σ : Type}
    (vf : String → String → σ → Bool) (chain : List Block) (tx : Transaction)
    (pub : String) (sig : σ) (nonce ts fuel : Nat) :
    (∀ chain', addBlock Hb Hm vf chain tx pub sig nonce ts fuel = some chain' →
      vf pub (txString tx) sig = true →
      chain'.length = chain.length + 1 ∧ chain'.take chain.length = chain) ∧
    (vf pub (txString tx) sig = false →
      addBlock Hb Hm vf chain tx pub sig nonce ts fuel = some chain) := by
  constructor
  · intro chain' h hv
    rcases addBlock_cases Hb Hm vf chain tx pub sig nonce ts fuel chain' h with
      ⟨hf, _⟩ | ⟨_, lb, s, hlb, hm, rfl⟩
    · rw [hv] at hf; cases hf
    · exact ⟨by simp, List.take_left chain _⟩
  · intro hv
    unfold addBlock
    rw [if_neg (by simp [hv])]

/-- Witness for C3: a concrete accepted call appends one block and keeps the
prefix; a concrete rejected call returns the chain unchanged. -/
theorem addBlock_append_or_silent_noop_witness :
    (([⟨3, "", genesisTransaction, 4⟩, ⟨7, "H", ⟨50, "pkA", "pkB"⟩, 9⟩] :
        List Block).length = (initialChain 3 4).length + 1 ∧
      ([⟨3, "", genesisTransaction, 4⟩, ⟨7, "H", ⟨50, "pkA", "pkB"⟩, 9⟩] :
        List Block).take (initialChain 3 4).length = initialChain 3 4) ∧
    addBlock (constHash "H") (constHash "0000") rejectAll (initialChain 3 4)
      ⟨50, "pkA", "pkB"⟩ "pkA" () 7 9 1 = some (initialChain 3 4) :=
  ⟨(addBlock_append_or_silent_noop (constHash "H") (constHash "0000") acceptAll
      (initialChain 3 4) ⟨50, "pkA", "pkB"⟩ "pkA" () 7 9 1).1
      [⟨3, "", genesisTransaction, 4⟩, ⟨7, "H", ⟨50, "pkA", "pkB"⟩, 9⟩]
      (by decide) (by decide),
    (addBlock_append_or_silent_noop (constHash "H") (constHash "0000") rejectAll
      (initialChain 3 4) ⟨50, "pkA", "pkB"⟩ "pkA" () 7 9 1).2 (by decide)⟩

/-- C9: `addBlock` performs no check that the supplied sender public key
equals the transaction's payer: whenever the signature verifies under the
supplied key, the call appends a block carrying the transaction, even when
that key differs from `tx.payer`. -/
theorem addBlock_no_payer_check (Hb Hm : String → String) {σ : Type}
    (vf : String → String → σ → Bool) (chain : List Block) (tx : Transaction)
    (pub : String) (sig : σ) (nonce ts fuel : Nat) (lb : Block) (s : Nat)
    (hv : vf pub (txString tx) sig = true) (hne : pub ≠ tx.payer)
    (hlb : lastBlock chain = some lb) (hm : mine Hm nonce fuel = some s) :
    addBlock Hb Hm vf chain tx pub sig nonce ts fuel =
      some (chain ++ [⟨nonce, blockHash Hb lb, tx, ts⟩]) ∧
    (chain ++ [Block.mk nonce (blockHash Hb lb) tx ts]).length = chain.length + 1 := by
  constructor
  · unfold addBlock
    rw [if_pos hv, hlb, hm]
  · simp

/-- Witness for C9: a concrete call whose sender key differs from the payer
still appends. -/
theorem addBlock_no_payer_check_witness :
    addBlock (constHash "H") (constHash "0000") acceptAll (initialChain 3 4)
      ⟨50, "pkA", "pkB"⟩ "pkX" () 7 9 1 =
      some (initialChain 3 4 ++
        [⟨7, blockHash (constHash "H") ⟨3, "", genesisTransaction, 4⟩,
          ⟨50, "pkA", "pkB"⟩, 9⟩]) ∧
    (initialChain 3 4 ++
      [Block.mk 7 (blockHash (constHash "H") ⟨3, "", genesisTransaction, 4⟩)
        ⟨50, "pkA", "pkB"⟩ 9]).length = (initialChain 3 4).length + 1 :=
  addBlock_no_payer_check (constHash "H") (constHash "0000") acceptAll
    (initialChain 3 4) ⟨50, "pkA", "pkB"⟩ "pkX" () 7 9 1
    ⟨3, "", genesisTransaction, 4⟩ 1 (by decide) (by decide) (by decide) (by decide)

/-- C10: a successful `addBlock` call only appends — the `mine` call returns
its solution but mutates nothing: every existing block is unchanged and the
appended block keeps exactly the nonce it was constructed with. -/
theorem mine_no_mutation_frame (Hb Hm : String → String) {σ : Type}
    (vf : String → String → σ → Bool) (chain : List Block) (tx : Transaction)
    (pub : String) (sig : σ) (nonce ts fuel : Nat) (chain' : List Block)
    (hv : vf pub (txString tx) sig = true)
    (h : addBlock Hb Hm vf chain tx pub sig nonce ts fuel = some chain') :
    ∃ lb, lastBlock chain = some lb ∧
      chain' = chain ++ [⟨nonce, blockHash Hb lb, tx, ts⟩] := by
  rcases addBlock_cases Hb Hm vf chain tx pub sig nonce ts fuel chain' h with
    ⟨hf, _⟩ | ⟨_, lb, s, hlb, hm, rfl⟩
  · rw [hv] at hf; cases hf
  · exact ⟨lb, hlb, rfl⟩

/-- Witness for C10 at a concrete successful call. -/
theorem mine_no_mutation_frame_witness :
    ∃ lb, lastBlock (initialChain 3 4) = some lb ∧
      ([⟨3, "", genesisTransaction, 4⟩, ⟨7, "H", ⟨50, "pkA", "pkB"⟩, 9⟩] :
        List Block) =
        initialChain 3 4 ++ [⟨7, blockHash (constHash "H") lb, ⟨50, "pkA", "pkB"⟩, 9⟩] :=
  mine_no_mutation_frame (constHash "H") (constHash "0000") acceptAll
    (initialChain 3 4) ⟨50, "pkA", "pkB"⟩ "pkA" () 7 9 1
    [⟨3, "", genesisTransaction, 4⟩, ⟨7, "H", ⟨50, "pkA", "pkB"⟩, 9⟩]
    (by decide) (by decide)

set_option maxRecDepth 100000 in
/-- C1 (counterexample): the claim "the stored nonce equals the mining
solution" fails on a concrete run with the real MD5 mining digest: mining
from nonce 5328 solves with solution 1, yet the appended block stores
nonce 5328, because `addBlock` discards the value returned by `mine`. -/
theorem addBlock_discards_solution_cex :
    mine md5hex 5328 2 = some 1 ∧
    addBlock (constHash "H") md5hex acceptAll (initialChain 3 4)
      ⟨50, "pkA", "pkB"⟩ "pkA" () 5328 9 2 =
      some [⟨3, "", genesisTransaction, 4⟩, ⟨5328, "H", ⟨50, "pkA", "pkB"⟩, 9⟩] ∧
    (5328 : Nat) ≠ 1 :=
  ⟨by decide, by decide, by decide⟩

/-- C1 (amended): in a successful admission, after constructing the new
block from `lastBlock.hash` and the transaction, the Ledger runs the mining
search on the new block's nonce but discards the returned solution: for any
solution `s` the mining returns, the appended block's stored nonce is the
construction-time nonce, not `s`. -/
theorem addBlock_keeps_construction_nonce (Hb Hm : String → String) {σ : Type}
    (vf : String → String → σ → Bool) (chain : List Block) (tx : Transaction)
    (pub : String) (sig : σ) (nonce ts fuel : Nat) (lb : Block) (s : Nat)
    (hv : vf pub (txString tx) sig = true)
    (hlb : lastBlock chain = some lb) (hm : mine Hm nonce fuel = some s) :
    addBlock Hb Hm vf chain tx pub sig nonce ts fuel =
      some (chain ++ [⟨nonce, blockHash Hb lb, tx, ts⟩]) ∧
    (chain ++ [Block.mk nonce (blockHash Hb lb) tx ts]).getLast?.map Block.nonce =
      some nonce := by
  constructor
  · unfold addBlock
    rw [if_pos hv, hlb, hm]
  · rw [List.getLast?_concat]
    rfl

set_option maxRecDepth 100000 in
/-- Witness for the amended C1, with the real MD5 digest: mining solves with
solution 1, the stored nonce is the construction nonce 5328. -/
theorem addBlock_keeps_construction_nonce_witness :
    addBlock (constHash "H") md5hex acceptAll (initialChain 3 4)
      ⟨50, "pkA", "pkB"⟩ "pkA" () 5328 9 2 =
      some (initialChain 3 4 ++
        [⟨5328, blockHash (constHash "H") ⟨3, "", genesisTransaction, 4⟩,
          ⟨50, "pkA", "pkB"⟩, 9⟩]) ∧
    (initialChain 3 4 ++
      [Block.mk 5328 (blockHash (constHash "H") ⟨3, "", genesisTransaction, 4⟩)
        ⟨50, "pkA", "pkB"⟩ 9]).getLast?.map Block.nonce = some 5328 :=
  addBlock_keeps_construction_nonce (constHash "H") md5hex acceptAll
    (initialChain 3 4) ⟨50, "pkA", "pkB"⟩ "pkA" () 5328 9 2
    ⟨3, "", genesisTransaction, 4⟩ 1 (by decide) (by decide) (by decide)

/-- Helper: a chain with a last block is nonempty and that block is its
final element. -/
theorem lastBlock_some {chain : List Block} {lb : Block}
    (h : lastBlock chain = some lb) :
    0 < chain.length ∧
      ∃ hh : chain.length - 1 < chain.length, chain[chain.length - 1] = lb := by
  unfold lastBlock at h
  rcases List.getElem?_eq_some.mp h with ⟨hh, he⟩
  exact ⟨by omega, hh, he⟩

/-- C6: every reachable ledger state has at least one block and its first
block has the empty previous hash — true at construction and preserved by
every `addBlock` call. -/
theorem genesis_invariant (Hb Hm : String → String) {σ : Type}
    (vf : String → String → σ → Bool) (chain : List Block)
    (h : Reachable Hb Hm vf chain) :
    0 < chain.length ∧ ∀ b, chain.head? = some b → b.prevHash = "" := by
  induction h with
  | init nonce ts =>
    refine ⟨by simp [initialChain], ?_⟩
    intro b hb
    simp only [initialChain, List.head?_cons, Option.some.injEq] at hb
    rw [← hb]
  | step c c' tx pub sig nonce ts fuel hr hadd ih =>
    rcases addBlock_cases _ _ _ _ _ _ _ _ _ _ _ hadd with
      ⟨_, rfl⟩ | ⟨_, lb, s, hlb, hm, rfl⟩
    · exact ih
    · obtain ⟨hlen, hhead⟩ := ih
      cases c with
      | nil => simp at hlen
      | cons b0 rest =>
        refine ⟨by simp, ?_⟩
        intro b hb
        rw [List.cons_append, List.head?_cons] at hb
        cases Option.some.inj hb
        exact hhead b0 rfl

/-- Witness for C6 at a concrete reachable state. -/
theorem genesis_invariant_witness :
    0 < (initialChain 5 6).length ∧
    ∀ b, (initialChain 5 6).head? = some b → b.prevHash = "" :=
  genesis_invariant (constHash "H") (constHash "0000") acceptAll
    (initialChain 5 6) (Reachable.init 5 6)

/-- C2: in every reachable ledger state, every non-genesis block's
`prevHash` equals the block digest of its predecessor computed from the
predecessor's stored fields (including its final stored nonce); the linkage
is preserved by every `addBlock` call. -/
theorem chain_linkage (Hb Hm : String → String) {σ : Type}
    (vf : String → String → σ → Bool) (chain : List Block)
    (h : Reachable Hb Hm vf chain) :
    ∀ i (hi1 : i < chain.length) (hi2 : i + 1 < chain.length),
      chain[i + 1].prevHash = blockHash Hb chain[i] := by
  induction h with
  | init nonce ts =>
    intro i hi1 hi2
    simp [initialChain] at hi2
  | step c c' tx pub sig nonce ts fuel hr hadd ih =>
    rcases addBlock_cases _ _ _ _ _ _ _ _ _ _ _ hadd with
      ⟨_, rfl⟩ | ⟨_, lb, s, hlb, hm, rfl⟩
    · exact ih
    · obtain ⟨h0, hh, hval⟩ := lastBlock_some hlb
      intro i hi1 hi2
      rw [List.length_append, List.length_singleton] at hi2
      by_cases hlt : i + 1 < c.length
      · rw [List.getElem_append_left hlt,
          List.getElem_append_left (show i < c.length by omega)]
        exact ih i (by omega) hlt
      · have hi : i = c.length - 1 := by omega
        rw [List.getElem_append_right (show c.length ≤ i + 1 by omega),
          List.getElem_append_left (show i < c.length by omega)]
        have hz : i + 1 - c.length = 0 := by omega
        simp only [hz, List.getElem_cons_zero]
        subst hi
        rw [hval]

/-- Witness for C2 at a concrete reachable two-block state. -/
theorem chain_linkage_witness :
    ([⟨1, "", genesisTransaction, 2⟩, ⟨7, "H", ⟨50, "pkA", "pkB"⟩, 9⟩] :
      List Block)[1].prevHash =
    blockHash (constHash "H")
      ([⟨1, "", genesisTransaction, 2⟩, ⟨7, "H", ⟨50, "pkA", "pkB"⟩, 9⟩] :
        List Block)[0] :=
  chain_linkage (constHash "H") (constHash "0000") acceptAll
    [⟨1, "", genesisTransaction, 2⟩, ⟨7, "H", ⟨50, "pkA", "pkB"⟩, 9⟩]
    (Reachable.step (initialChain 1 2)
      [⟨1, "", genesisTransaction, 2⟩, ⟨7, "H", ⟨50, "pkA", "pkB"⟩, 9⟩]
      ⟨50, "pkA", "pkB"⟩ "pkA" () 7 9 1 (Reachable.init 1 2) (by decide))
    0 (by decide) (by decide)

set_option maxRecDepth 400000 in
/-- C4 (counterexample): `mine` does not return the smallest non-negative
solution: with the real MD5 digest and seed 96490843, solution 0 already
meets the `0000` target (the digest of `"96490843"` starts with four zero
hex digits), yet the search, which starts at 1, returns 5. -/
theorem mine_not_least_nonneg_cex :
    hasTarget (md5hex ⟨natDecimal (96490843 + 0)⟩) = true ∧
    mine md5hex 96490843 6 = some 5 ∧ ¬((5 : Nat) ≤ 0) :=
  ⟨by decide, by decide, by decide⟩

/-- C4 (amended): for every seed, `mine` returns (when its search
terminates) the smallest *positive* solution `s ≥ 1` such that the mining
digest of the decimal string of `seed + s` has four leading zero hex
digits — the linear brute-force search starts at `solution = 1`,
increments by 1, stops at first success, and never tests 0; for a fixed
seed and digest the returned solution is deterministic (independent even of
the fuel bound). -/
theorem mine_least_positive_deterministic (Hm : String → String)
    (nonce fuel s : Nat) (h : mine Hm nonce fuel = some s) :
    1 ≤ s ∧ hasTarget (Hm ⟨natDecimal (nonce + s)⟩) = true ∧
    (∀ k, 1 ≤ k → k < s → hasTarget (Hm ⟨natDecimal (nonce + k)⟩) = false) ∧
    ∀ fuel' s', mine Hm nonce fuel' = some s' → s' = s := by
  obtain ⟨h1, h2, h3⟩ := mine_spec Hm nonce fuel s h
  refine ⟨h1, h2, h3, ?_⟩
  intro fuel' s' h'
  obtain ⟨h1', h2', h3'⟩ := mine_spec Hm nonce fuel' s' h'
  by_contra hne
  rcases Nat.lt_or_ge s' s with hlt | hge
  · rw [h3 s' h1' hlt] at h2'
    cases h2'
  · have hlt' : s < s' := by omega
    rw [h3' s h1 hlt'] at h2
    cases h2

set_option maxRecDepth 400000 in
/-- Witness for the amended C4 with the real MD5 digest at seed 5328:
the returned solution is 1. -/
theorem mine_least_positive_deterministic_witness :
    1 ≤ 1 ∧ hasTarget (md5hex ⟨natDecimal (5328 + 1)⟩) = true ∧
    (∀ k, 1 ≤ k → k < 1 → hasTarget (md5hex ⟨natDecimal (5328 + k)⟩) = false) ∧
    ∀ fuel' s', mine md5hex 5328 fuel' = some s' → s' = 1 :=
  mine_least_positive_deterministic md5hex 5328 2 1 (by decide)

end BitcoinSimulator
